import Mathlib

/-!
# Verification of the ssCTPR core against its specification

The repository ships (in `src/src/RcppExports.cpp`) the R-to-C++ dispatch
layer for eight exported routines: `countlines`, `multiBed3`, `multiBed3sp`,
`elnet`, `repelnet`, `genotypeMatrix`, `normalize` and `runElnet`.  The bodies
of those routines are not part of the sources provided, so every definition
below that concerns them is a shallow model built from the specification
(`spec.md`), as its doc comment records.  The dispatch layer itself is
present in the sources and is embedded directly.

Numeric code is modelled over `ℚ` (exact rationals) wherever the routine is
rational, and over `ℝ` for the one routine (`normalize`) whose specification
involves a square root.
-/

namespace SsCTPR

/-! ## Basic list arithmetic helpers -/

/-- Dot product of two rational vectors (truncates at the shorter one, the
way the armadillo code pairs equal-length buffers). -/
def dotQ : List ℚ → List ℚ → ℚ
  | a :: as, b :: bs => a * b + dotQ as bs
  | _, _ => 0

/-- `axpyQ c xs ys = ys + c • xs` componentwise (the in-place ŷ update). -/
def axpyQ (c : ℚ) : List ℚ → List ℚ → List ℚ
  | _, [] => []
  | [], ys => ys
  | x :: xs, y :: ys => (y + c * x) :: axpyQ c xs ys

/-- Maximum of the absolute values of a list, `0` for the empty list. -/
def maxAbsQ : List ℚ → ℚ
  | [] => 0
  | v :: vs => max |v| (maxAbsQ vs)

/-- Sum of absolute values (the L1 norm of a coefficient vector). -/
def l1Norm (xs : List ℚ) : ℚ := (xs.map (fun v => |v|)).sum

/-- Number of non-zero entries of a coefficient vector. -/
def nnzCount (xs : List ℚ) : ℕ := (xs.filter (fun v => decide (v ≠ 0))).length

/-- Soft-threshold operator `S(z, τ) = sign(z) · max(|z| − τ, 0)`,
written by cases as in §4.3 of the spec. -/
def softThr (z τ : ℚ) : ℚ :=
  if τ < z then z - τ else if z < -τ then z + τ else 0

/-! ## Coordinate-descent solver (elnet / repelnet)

Modelled from the spec: the bodies of `elnet` and `repelnet` are not in the
provided sources (only their declarations and the R dispatch layer are), so
the solver is reconstructed from §4.3–§4.4 of `spec.md`.  The C++ routine
mutates the buffers `x` (β) and `yhat` in place while reading `diag`, `X`,
`r` and `adj`; the model passes the whole memory explicitly as a `Mem`
record and every step rebuilds it with only `x` and `yhat` replaced.

Conventions, following §4.3: `X` is stored column-wise and is taken to be
the design already scaled by `1/√N_kept` (the spec allows this: ŷ is
maintained "up to the √N_kept scaling" and `diag` is "supplied explicitly
to tolerate partial standardization"), so `yhat = X β` and
`(Xᵀ ŷ)_j = dotQ X_j yhat`.  `r` is stored row-wise with `T` entries per
row: entry 0 is this trait's correlation `r_j` and entries `1..` are the
frozen coefficients of the other traits, which §4.4 folds into the update
as the additive coupling term `lambda_ct · Σ_{s≠t} β_{j,s}`. -/

/-- The memory a single-trait solver call works on. -/
structure Mem where
  lambda1 : ℚ
  lambda2 : ℚ
  lambdaCT : ℚ
  thr : ℚ
  P : ℕ
  diag : List ℚ
  X : List (List ℚ)
  r : List (List ℚ)
  adj : List ℚ
  x : List ℚ
  yhat : List ℚ
deriving Repr, DecidableEq

/-- Modelled from the spec (§4.3): the value the coordinate-descent update
writes into coordinate `j`, namely
`S(r_j + coupling + d_j β_j − (Xᵀ ŷ)_j, λ1 a_j) / (d_j + λ2)`,
with coordinates whose `d_j + λ2 = 0` forced to `0`. -/
def updateVal (m : Mem) (j : ℕ) : ℚ :=
  let xj := m.x.getD j 0
  let g := dotQ (m.X.getD j []) m.yhat
  let row := m.r.getD j []
  let rj := row.getD 0 0
  let ct := m.lambdaCT * (row.drop 1).sum
  let dj := m.diag.getD j 0
  let den := dj + m.lambda2
  let z := rj + ct - g + dj * xj
  if den = 0 then 0 else softThr z (m.lambda1 * m.adj.getD j 0) / den

/-- One in-place coordinate update: writes `updateVal` into `x j` and
maintains the cache `yhat = X β` incrementally (§4.3). -/
def updateCoord (m : Mem) (j : ℕ) : Mem :=
  let nx := updateVal m j
  { m with x := m.x.set j nx, yhat := axpyQ (nx - m.x.getD j 0) (m.X.getD j []) m.yhat }

/-- Sweep the coordinates in `idxs` once, in order, returning the new memory
and the largest absolute coefficient change seen. -/
def sweep : Mem → List ℕ → Mem × ℚ
  | m, [] => (m, 0)
  | m, j :: rest =>
    let m' := updateCoord m j
    let d := |m'.x.getD j 0 - m.x.getD j 0|
    let p := sweep m' rest
    (p.1, max d p.2)

/-- Convergence test of §4.3: the largest coefficient change, normalized by
`1 + max|β|`, is at most `thr` (stated multiplicatively to stay in `ℚ`). -/
def convergedB (m : Mem) (ch : ℚ) : Bool :=
  decide (ch ≤ m.thr * (1 + maxAbsQ m.x))

/-- The active set after a sweep: the coordinates currently non-zero. -/
def activeSet (m : Mem) : List ℕ :=
  (List.range m.P).filter (fun j => decide (m.x.getD j 0 ≠ 0))

/-- Repeated sweeps over a frozen active set until the normalized change is
within `thr`; `fuel` bounds the repetitions (the C++ loop is unbounded, the
spec drives it purely by the convergence test). -/
def activeLoop : ℕ → Mem → List ℕ → Mem
  | 0, m, _ => m
  | fuel + 1, m, idxs =>
    let p := sweep m idxs
    if convergedB p.1 p.2 then p.1 else activeLoop fuel p.1 idxs

/-- Outer loop of §4.3: a full sweep, the convergence test, then active-set
sweeps, capped at `maxiter` full sweeps.  Returns the convergence flag and
the final memory. -/
def elnetLoop (afuel : ℕ) : ℕ → Mem → Bool × Mem
  | 0, m => (false, m)
  | k + 1, m =>
    let p := sweep m (List.range m.P)
    if convergedB p.1 p.2 then (true, p.1)
    else elnetLoop afuel k (activeLoop afuel p.1 (activeSet p.1))

/-- Modelled from the spec: the single-trait solver `elnet` of §4.3, whose
C++ body is absent from the provided sources.  `afuel` bounds the inner
active-set loop, `maxiter` caps the full sweeps. -/
def elnet (afuel maxiter : ℕ) (m : Mem) : Bool × Mem :=
  elnetLoop afuel maxiter m

/-- One unconditional outer round (full sweep followed by the active-set
phase); `elnet` that fails to converge is exactly `maxiter` of these. -/
def elnetStep (afuel : ℕ) (m : Mem) : Mem :=
  let p := sweep m (List.range m.P)
  activeLoop afuel p.1 (activeSet p.1)

/-- `maxiter`-fold iteration of `elnetStep`. -/
def elnetIter (afuel : ℕ) : ℕ → Mem → Mem
  | 0, m => m
  | k + 1, m => elnetIter afuel k (elnetStep afuel m)

/-- Stationarity residual of coordinate `j` at the current memory: the
distance between `β_j` and the soft-threshold update evaluated there. -/
def resid (m : Mem) (j : ℕ) : ℚ := |m.x.getD j 0 - updateVal m j|

/-! ### Block-partitioned solver (repelnet) -/

/-- The coordinate indices of an inclusive block `[s, e]`. -/
def blockFull (b : ℕ × ℕ) : List ℕ := List.range' b.1 (b.2 + 1 - b.1)

/-- Sweep a list of index lists in order (one per block), returning the new
memory and the largest change over all blocks (§4.3: inside a block the
sweep is identical, blocks are processed in order, the convergence test is
evaluated per block then globally). -/
def sweepSeq : Mem → List (List ℕ) → Mem × ℚ
  | m, [] => (m, 0)
  | m, l :: ls =>
    let p := sweep m l
    let q := sweepSeq p.1 ls
    (q.1, max p.2 q.2)

/-- Active-set loop of the block-partitioned solver: each pass sweeps the
per-block active index lists in block order. -/
def activeLoopB (lss : List (List ℕ)) : ℕ → Mem → Mem
  | 0, m => m
  | fuel + 1, m =>
    let p := sweepSeq m lss
    if convergedB p.1 p.2 then p.1 else activeLoopB lss fuel p.1

/-- Outer loop of the block-partitioned solver. -/
def repelnetLoop (blocks : List (ℕ × ℕ)) (afuel : ℕ) : ℕ → Mem → Bool × Mem
  | 0, m => (false, m)
  | k + 1, m =>
    let p := sweepSeq m (blocks.map blockFull)
    if convergedB p.1 p.2 then (true, p.1)
    else
      let lss := blocks.map
        (fun b => (blockFull b).filter (fun j => decide (p.1.x.getD j 0 ≠ 0)))
      repelnetLoop blocks afuel k (activeLoopB lss afuel p.1)

/-- Modelled from the spec: the block-partitioned solver `repelnet` of
§4.3, whose C++ body is absent from the provided sources.  `startvec` and
`endvec` give the inclusive block ranges. -/
def repelnet (startvec endvec : List ℕ) (afuel maxiter : ℕ) (m : Mem) : Bool × Mem :=
  repelnetLoop (startvec.zip endvec) afuel maxiter m

/-- Decidable check that `blocks` is a contiguous partition of `[lo, hi)`
into inclusive ranges, as §3's BlockPartition demands. -/
def isPartitionB : ℕ → List (ℕ × ℕ) → ℕ → Bool
  | lo, [], hi => decide (lo = hi)
  | lo, (s, e) :: bs, hi => decide (s = lo) && decide (lo ≤ e) && isPartitionB (e + 1) bs hi

/-! ## Packed-genotype reader (genotypeMatrix)

Modelled from the spec: the body of `genotypeMatrix` is absent from the
provided sources; §3 and §4.1 of `spec.md` fix the byte layout, the 2-bit
decode table and the NA→mean imputation, which the following definitions
transcribe.  A packed file is a list of byte values; the `fillmissing`
toggle of the C++ signature is not described beyond the imputing path, so
the model always imputes (the path every claim exercises). -/

/-- Bytes per variant: `⌈N/4⌉`. -/
def bytesPerVariant (N : ℕ) : ℕ := (N + 3) / 4

/-- The fixed 3-byte magic header precedes variant 0 (§3). -/
def headerSize : ℕ := 3

/-- Decode table of §3: `00`=2, `01`=missing, `10`=1, `11`=0. -/
def decodeCode : ℕ → Option ℚ
  | 0 => some 2
  | 1 => none
  | 2 => some 1
  | _ => some 0

/-- Raw call of kept sample `i` at variant `v` (§4.1): read the byte at
offset `headerSize + v·⌈N/4⌉ + keepbytes[i]`, shift right by
`keepoffset[i]`, mask with `0b11`, and decode. -/
def rawCall (file : List ℕ) (N : ℕ) (keepbytes keepoffset : List ℕ) (v i : ℕ) : Option ℚ :=
  decodeCode
    ((file.getD (headerSize + v * bytesPerVariant N + keepbytes.getD i 0) 0 >>>
        keepoffset.getD i 0) &&& 3)

/-- The raw (pre-imputation) decoded column of variant `v` over the kept
samples. -/
def rawColumn (file : List ℕ) (N : ℕ) (keepbytes keepoffset : List ℕ) (v : ℕ) :
    List (Option ℚ) :=
  (List.range keepbytes.length).map (fun i => rawCall file N keepbytes keepoffset v i)

/-- NA→mean imputation (§4.1): missing calls are replaced by the mean of
the non-missing calls of the column (which equals `2·p̂`). -/
def imputeMean (col : List (Option ℚ)) : List ℚ :=
  let obs := col.filterMap id
  let mean := if obs.length = 0 then 0 else obs.sum / (obs.length : ℚ)
  col.map (fun o => o.getD mean)

/-- Does variant `v` fall in one of the `(col_skip_pos, col_skip)` runs? -/
def inSkipB (colSkipPos colSkip : List ℕ) (v : ℕ) : Bool :=
  (List.range colSkipPos.length).any
    (fun k => decide (colSkipPos.getD k 0 ≤ v) &&
      decide (v < colSkipPos.getD k 0 + colSkip.getD k 0))

/-- The kept variants: the complement of the skip runs, in file order (§3). -/
def keptVariants (P : ℕ) (colSkipPos colSkip : List ℕ) : List ℕ :=
  (List.range P).filter (fun v => ! inSkipB colSkipPos colSkip v)

/-- The imputed decoded column of variant `v`. -/
def imputedColumn (file : List ℕ) (N : ℕ) (keepbytes keepoffset : List ℕ) (v : ℕ) :
    List ℚ :=
  imputeMean (rawColumn file N keepbytes keepoffset v)

/-- Modelled from the spec: `genotypeMatrix` of §4.1 (body absent from the
provided sources), as the list of imputed decoded columns of the kept
variants, each over the kept samples. -/
def genotypeMatrix (file : List ℕ) (N P : ℕ)
    (colSkipPos colSkip keepbytes keepoffset : List ℕ) : List (List ℚ) :=
  (keptVariants P colSkipPos colSkip).map
    (fun v => imputedColumn file N keepbytes keepoffset v)

/-! ## Column standardization (normalize)

Modelled from the spec: the body of `normalize` is absent from the provided
sources; §4.1 of `spec.md` fixes the standardization: center by `2·p̂`,
divide by `σ = √(2 p̂ (1 − p̂))` when `σ > 0`, leave the column identically
zero when `σ = 0`, and return `σ` per column.  The square root forces this
model into `ℝ`. -/

/-- Mean of a real column (`0` for the empty column). -/
noncomputable def colMean (g : List ℝ) : ℝ := g.sum / (g.length : ℝ)

/-- Allele frequency `p̂`: the column mean divided by 2 (§3; NAs are already
imputed to the column mean by the reader, so the mean of the calls is
`2·p̂`). -/
noncomputable def pHat (g : List ℝ) : ℝ := colMean g / 2

/-- Standard deviation `σ = √(2 p̂ (1 − p̂))` of §3. -/
noncomputable def sigmaHat (g : List ℝ) : ℝ :=
  Real.sqrt (2 * pHat g * (1 - pHat g))

/-- Standardize one column: center by `2·p̂` then divide by `σ` when
`σ > 0`, otherwise zero the column (§4.1). -/
noncomputable def normalizeCol (g : List ℝ) : List ℝ :=
  if 0 < sigmaHat g then g.map (fun v => (v - 2 * pHat g) / sigmaHat g)
  else g.map (fun _ => 0)

/-- Modelled from the spec: `normalize` standardizes every column in place
and returns the per-column `σ`.  The model returns the pair (standardized
matrix, σ vector). -/
noncomputable def normalize (genotypes : List (List ℝ)) : List (List ℝ) × List ℝ :=
  (genotypes.map normalizeCol, genotypes.map sigmaHat)

/-- Population variance of a column (`0` for the empty column). -/
noncomputable def popVar (g : List ℝ) : ℝ :=
  ((g.map (fun v => (v - colMean g) ^ 2)).sum) / (g.length : ℝ)

/-! ## Matrix×packed kernels (multiBed3, multiBed3sp)

Modelled from the spec: the bodies of `multiBed3` and `multiBed3sp` are
absent from the provided sources; §4.2 of `spec.md` specifies them as
`X · input` (dense) and `X · B` with `B` the sparse matrix described by
`(beta, nonzeros, colpos, ncol)`, both over the decoded, NA→mean imputed
genotype values of the kept variants and kept samples.  The sparse kernel
only ever decodes the variants referenced in `nonzeros`. -/

/-- Entry accessor for a list-of-rows matrix (0 outside the stored area). -/
def getE (mat : List (List ℚ)) (i c : ℕ) : ℚ := (mat.getD i []).getD c 0

/-- The `n × m` zero matrix as a list of rows. -/
def zeroMat (n m : ℕ) : List (List ℚ) := List.replicate n (List.replicate m 0)

/-- Overwrite entry `(i, c)` of a list-of-rows matrix. -/
def setMat (mat : List (List ℚ)) (i c : ℕ) (v : ℚ) : List (List ℚ) :=
  mat.set i ((mat.getD i []).set c v)

/-- The `P_kept × ncol` matrix whose only non-zero entries are the values
`b` of the triplet list placed at positions `(v, c)` — the matrix `B` that
§4.2 associates with `(beta, nonzeros, colpos, ncol)`. -/
def scatterB : List (ℚ × ℕ × ℕ) → ℕ → ℕ → List (List ℚ)
  | [], pk, nc => zeroMat pk nc
  | t :: ts, pk, nc => setMat (scatterB ts pk nc) t.2.1 t.2.2 t.1

/-- Modelled from the spec: the dense kernel `multiBed3` (§4.2): the
`N_kept × M` product of the imputed genotype matrix with a dense
`P_kept × M` input, streaming the kept variants. -/
def multiBed3 (file : List ℕ) (N P : ℕ) (input : List (List ℚ))
    (colSkipPos colSkip keepbytes keepoffset : List ℕ) : List (List ℚ) :=
  let kept := keptVariants P colSkipPos colSkip
  let M := (input.getD 0 []).length
  (List.range keepbytes.length).map (fun i =>
    (List.range M).map (fun c =>
      ∑ vIdx ∈ Finset.range kept.length,
        (imputedColumn file N keepbytes keepoffset (kept.getD vIdx 0)).getD i 0 *
          getE input vIdx c))

/-- Modelled from the spec: the sparse kernel `multiBed3sp` (§4.2): for
each output entry, stream only the triplets `(beta[k], nonzeros[k],
colpos[k])`, decode the referenced variant, and add `value · beta[k]` into
column `colpos[k]`. -/
def multiBed3sp (file : List ℕ) (N P : ℕ) (beta : List ℚ)
    (nonzeros colpos : List ℕ) (ncol : ℕ)
    (colSkipPos colSkip keepbytes keepoffset : List ℕ) : List (List ℚ) :=
  let kept := keptVariants P colSkipPos colSkip
  let trip := beta.zip (nonzeros.zip colpos)
  (List.range keepbytes.length).map (fun i =>
    (List.range ncol).map (fun c =>
      (trip.map (fun t =>
        if t.2.2 = c then
          (imputedColumn file N keepbytes keepoffset (kept.getD t.2.1 0)).getD i 0 * t.1
        else 0)).sum))

/-! ## Path driver (runElnet)

Modelled from the spec: the body of `runElnet` is absent from the provided
sources; §4.4–§4.5 of `spec.md` describe it.  The reader/standardization
stage involves `√N` and `√(2p̂(1−p̂))`, so the driver core below takes the
already-standardized design `X` and `diag` directly (the spec treats them
as opaque inputs of the solver) and models the path iteration, the
block-Gauss-Seidel over traits with the cross-trait coupling, and the
warm starts. -/

/-- Immutable inputs of one driver run. -/
structure DriverCtx where
  lambda2 : ℚ
  lambdaCT : ℚ
  thr : ℚ
  P : ℕ
  T : ℕ
  diag : List ℚ
  X : List (List ℚ)
  rfull : List (List ℚ)
  adj : List ℚ
  startvec : List ℕ
  endvec : List ℕ
  afuel : ℕ
  maxiter : ℕ
  outerFuel : ℕ
deriving Repr

/-- Mutable driver state: the coefficient columns (one per trait) and the
per-trait ŷ caches. -/
structure PathState where
  B : List (List ℚ)
  yhats : List (List ℚ)
deriving Repr, DecidableEq

/-- The effective `r` matrix handed to trait `t`'s inner solve: row `j`
holds this trait's `r_{j,t}` followed by the other traits' current
coefficients at `j`, which §4.4 freezes as a constant additive term. -/
def traitRmat (rfull B : List (List ℚ)) (t P : ℕ) : List (List ℚ) :=
  (List.range P).map (fun j =>
    (rfull.getD j []).getD t 0 ::
      ((List.range B.length).filterMap (fun s =>
        if s = t then none else some ((B.getD s []).getD j 0))))

/-- The solver memory for trait `t` at L1 strength `lam1`. -/
def traitMem (dc : DriverCtx) (lam1 : ℚ) (ps : PathState) (t : ℕ) : Mem :=
  { lambda1 := lam1, lambda2 := dc.lambda2, lambdaCT := dc.lambdaCT, thr := dc.thr,
    P := dc.P, diag := dc.diag, X := dc.X, r := traitRmat dc.rfull ps.B t dc.P,
    adj := dc.adj, x := ps.B.getD t [], yhat := ps.yhats.getD t [] }

/-- Largest absolute componentwise difference of two equally long vectors. -/
def maxAbsDiff (a b : List ℚ) : ℚ := maxAbsQ (List.zipWith (fun u v => u - v) a b)

/-- One pass over the listed traits (block Gauss–Seidel, §4.4): solve each
trait with the others frozen, threading the state and tracking the largest
column change and whether every inner solve converged. -/
def outerPassGo (dc : DriverCtx) (lam1 : ℚ) :
    List ℕ → PathState → ℚ → Bool → PathState × ℚ × Bool
  | [], ps, ch, cv => (ps, ch, cv)
  | t :: ts, ps, ch, cv =>
    let res := repelnet dc.startvec dc.endvec dc.afuel dc.maxiter (traitMem dc lam1 ps t)
    let ch' := max ch (maxAbsDiff res.2.x (ps.B.getD t []))
    outerPassGo dc lam1 ts
      { B := ps.B.set t res.2.x, yhats := ps.yhats.set t res.2.yhat } ch' (cv && res.1)

/-- Outer trait iterations (§4.4): repeat passes until every inner solve
converged and no column changed by more than `thr`, bounded by `fuel`. -/
def outerLoop (dc : DriverCtx) (lam1 : ℚ) : ℕ → PathState → Bool × PathState
  | 0, ps => (false, ps)
  | fuel + 1, ps =>
    let q := outerPassGo dc lam1 (List.range dc.T) ps 0 true
    if q.2.2 && decide (q.2.1 ≤ dc.thr) then (true, q.1)
    else outerLoop dc lam1 fuel q.1

/-- Modelled from the spec: the path driver core of `runElnet` (§4.5):
iterate the decreasing L1 sequence with warm starts, recording per path
point the L1 strength, the outer convergence flag and the state. -/
def runElnetCore (dc : DriverCtx) : List ℚ → PathState → List (ℚ × Bool × PathState)
  | [], _ => []
  | lam :: ls, ps =>
    let q := outerLoop dc lam dc.outerFuel ps
    (lam, q.1, q.2) :: runElnetCore dc ls q.2

/-- The design-matrix product `X · x` over `N` rows (initial ŷ cache). -/
def mulXv (X : List (List ℚ)) (x : List ℚ) (N : ℕ) : List ℚ :=
  (List.range N).map (fun i =>
    ∑ j ∈ Finset.range X.length, (X.getD j []).getD i 0 * x.getD j 0)

/-- Initial driver state from the warm-start vector `x0` (§4.5 step 1). -/
def initState (dc : DriverCtx) (x0 : List ℚ) (N : ℕ) : PathState :=
  { B := List.replicate dc.T x0, yhats := List.replicate dc.T (mulXv dc.X x0 N) }

/-! ## The R dispatch layer (RcppExports.cpp)

This layer is present in the sources (`src/src/RcppExports.cpp`).  Each
exported entry point wraps the underlying C++ call twice: the inner `_try`
function (`BEGIN_RCPP … END_RCPP_RETURN_ERROR`) turns a C++ exception into
a `"try-error"` object carrying the message and an interrupt into an
`"interrupted-error"` object; the outer function then checks, in source
order, for `"interrupted-error"` (re-raising the R interrupt via
`Rf_onintr`), for a longjump sentinel (resumed via `resumeJump`), and for
`"try-error"` (re-raised as an R error via `Rf_error` with the carried
message), and otherwise returns the value. -/

/-- What the underlying C++ call can do (value, exception, interrupt). -/
inductive CppOutcome (α : Type) where
  | ok (v : α)
  | exn (msg : String)
  | interrupt
deriving DecidableEq

/-- The object classes the inner `_try` wrapper can hand to the outer
dispatch (lines 14–21 / 28–42 of `RcppExports.cpp`). -/
inductive RObj (α : Type) where
  | normal (v : α)
  | tryError (msg : String)
  | interruptedError
  | longjumpSentinel
deriving DecidableEq

/-- What the outer wrapper delivers to R. -/
inductive ROutcome (α : Type) where
  | value (v : α)
  | rError (msg : String)
  | rInterrupt
  | resumeJump
deriving DecidableEq

/-- The inner `_try` layer (`BEGIN_RCPP … END_RCPP_RETURN_ERROR`, lines
14–21): wrap the call's outcome into the sentinel object classes. -/
def tryWrap {α : Type} : CppOutcome α → RObj α
  | .ok v => .normal v
  | .exn msg => .tryError msg
  | .interrupt => .interruptedError

/-- The outer dispatch (lines 22–45): the checks in source order —
`interrupted-error` first, then the longjump sentinel, then `try-error`,
else the value is returned unchanged. -/
def rcppDispatch {α : Type} : RObj α → ROutcome α
  | .interruptedError => .rInterrupt
  | .longjumpSentinel => .resumeJump
  | .tryError msg => .rError msg
  | .normal v => .value v

/-- A whole exported entry point: the `_try` layer followed by the outer
dispatch. -/
def rcppExport {α : Type} (c : CppOutcome α) : ROutcome α :=
  rcppDispatch (tryWrap c)

/-! ## Concrete instances used by the closed theorems below -/

/-- All fields of a solver memory except the in-place buffers `x`, `yhat`:
the inputs the C++ signature declares immutable. -/
def ctxOf (m : Mem) :
    ℚ × ℚ × ℚ × ℚ × ℕ × List ℚ × List (List ℚ) × List (List ℚ) × List ℚ :=
  (m.lambda1, m.lambda2, m.lambdaCT, m.thr, m.P, m.diag, m.X, m.r, m.adj)

/-- A two-coordinate problem with strongly correlated design columns
`(3/5, 4/5)` and `(4/5, 3/5)` (Gram off-diagonal `24/25`), `r = (1, −1)`,
no penalties, `thr = 1/4`. -/
def memCorr : Mem :=
  { lambda1 := 0, lambda2 := 0, lambdaCT := 0, thr := 1/4, P := 2,
    diag := [1, 1], X := [[3/5, 4/5], [4/5, 3/5]], r := [[1], [-1]],
    adj := [1, 1], x := [0, 0], yhat := [0, 0] }

/-- A one-coordinate problem that converges quickly (witness instance). -/
def memTiny : Mem :=
  { lambda1 := 0, lambda2 := 0, lambdaCT := 0, thr := 1/4, P := 1,
    diag := [1], X := [[1]], r := [[1/2]],
    adj := [1], x := [0], yhat := [0] }

/-- The same one-coordinate problem with a tolerance so small that one full
sweep cannot pass the test: the iteration cap fires. -/
def memCap : Mem :=
  { lambda1 := 0, lambda2 := 0, lambdaCT := 0, thr := 1/100, P := 1,
    diag := [1], X := [[1]], r := [[1/2]],
    adj := [1], x := [0], yhat := [0] }

/-- A two-coordinate, two-sample instance used to witness the block/plain
solver agreement. -/
def memBlk : Mem :=
  { lambda1 := 1/10, lambda2 := 1/2, lambdaCT := 0, thr := 1/10, P := 2,
    diag := [1, 1], X := [[3/5, 4/5], [4/5, 3/5]], r := [[1], [-1]],
    adj := [1, 1], x := [0, 0], yhat := [0, 0] }

/-- Driver instance refuting cross-trait symmetry within `thr`: two traits
with identical inputs (`r` columns `(−2/5, −4/5)` each), uniform coupling
`w = 1` with `lambda_ct = 1/5`, correlated design, `thr = 1/10`. -/
def dcSym : DriverCtx :=
  { lambda2 := 0, lambdaCT := 1/5, thr := 1/10, P := 2, T := 2,
    diag := [13/10, 13/10], X := [[9/10, 7/10], [7/10, 9/10]],
    rfull := [[-2/5, -2/5], [-4/5, -4/5]], adj := [1, 1],
    startvec := [0], endvec := [1], afuel := 10, maxiter := 60, outerFuel := 80 }

/-- Driver instance (orthogonal design, identical traits) where the
converged trait columns do agree within `thr`. -/
def dcSymOk : DriverCtx :=
  { lambda2 := 0, lambdaCT := 1/2, thr := 1/20, P := 2, T := 2,
    diag := [1, 1], X := [[1, 0], [0, 1]],
    rfull := [[1/2, 1/2], [3/10, 3/10]], adj := [1, 1],
    startvec := [0], endvec := [1], afuel := 10, maxiter := 60, outerFuel := 80 }

/-- Zero two-trait driver state over two coordinates. -/
def psT2 : PathState := { B := [[0, 0], [0, 0]], yhats := [[0, 0], [0, 0]] }

/-- Single-trait driver instance on three correlated columns on which the
number of non-zeros drops along the path `{1, 1/2, 1/10}`. -/
def dcPath : DriverCtx :=
  { lambda2 := 0, lambdaCT := 0, thr := 1/50, P := 3, T := 1,
    diag := [41/100, 21/100, 109/100],
    X := [[2/5, 1/2, 0], [-1/5, -1/10, -2/5], [-4/5, -3/5, -3/10]],
    rfull := [[-1/2], [9/10], [6/5]], adj := [1, 1, 1],
    startvec := [0], endvec := [2], afuel := 20, maxiter := 100, outerFuel := 40 }

/-- Single-trait orthogonal driver instance on which the path
`{1, 1/2, 1/10}` has non-decreasing support and L1 norm. -/
def dcPathOk : DriverCtx :=
  { lambda2 := 0, lambdaCT := 0, thr := 1/50, P := 2, T := 1,
    diag := [1, 1], X := [[1, 0], [0, 1]],
    rfull := [[7/10], [3/10]], adj := [1, 1],
    startvec := [0], endvec := [1], afuel := 10, maxiter := 60, outerFuel := 40 }

/-- Zero single-trait driver state over three coordinates. -/
def psT3 : PathState := { B := [[0, 0, 0]], yhats := [[0, 0, 0]] }

/-- Zero single-trait driver state over two coordinates. -/
def psT1 : PathState := { B := [[0, 0]], yhats := [[0, 0]] }

/-! ## Theorems -/

/-- C10: every exported entry point either returns a normal value or
signals a distinguishable condition: a C++ exception becomes an R error
carrying its message, an interrupt sentinel is re-raised as an R interrupt
rather than reported as an ordinary error, and no exception or sentinel
escapes as a normal result. -/
theorem claim10_dispatch {α : Type} :
    (∀ v : α, rcppExport (CppOutcome.ok v) = ROutcome.value v) ∧
    (∀ msg : String, rcppExport (CppOutcome.exn msg : CppOutcome α) = ROutcome.rError msg) ∧
    rcppExport (CppOutcome.interrupt : CppOutcome α) = ROutcome.rInterrupt ∧
    (∀ (c : CppOutcome α) (v : α), rcppExport c = ROutcome.value v → c = CppOutcome.ok v) := by
  refine ⟨fun _ => rfl, fun _ => rfl, rfl, ?_⟩
  intro c v h
  cases c with
  | ok w => cases h; rfl
  | exn msg => exact absurd h (by simp [rcppExport, tryWrap, rcppDispatch])
  | interrupt => exact absurd h (by simp [rcppExport, tryWrap, rcppDispatch])

/-- Closed instance of C10, discharging the hypothesis of its last
conjunct at a concrete input. -/
theorem claim10_dispatch_witness :
    rcppExport (CppOutcome.ok (42 : ℕ)) = ROutcome.value 42 ∧
    rcppExport (CppOutcome.exn "boom" : CppOutcome ℕ) = ROutcome.rError "boom" ∧
    CppOutcome.ok (37 : ℕ) = CppOutcome.ok 37 :=
  ⟨claim10_dispatch.1 42, claim10_dispatch.2.1 "boom",
    claim10_dispatch.2.2.2 (CppOutcome.ok 37) 37 rfl⟩

/-! ### Preservation of the immutable inputs through the solver -/

theorem ctxOf_updateCoord (m : Mem) (j : ℕ) : ctxOf (updateCoord m j) = ctxOf m := rfl

theorem ctxOf_sweep (idxs : List ℕ) : ∀ m : Mem, ctxOf (sweep m idxs).1 = ctxOf m := by
  induction idxs with
  | nil => intro m; rfl
  | cons j rest ih => intro m; exact ih (updateCoord m j)

theorem ctxOf_activeLoop (fuel : ℕ) :
    ∀ (m : Mem) (idxs : List ℕ), ctxOf (activeLoop fuel m idxs) = ctxOf m := by
  induction fuel with
  | zero => intro m idxs; rfl
  | succ f ih =>
    intro m idxs
    simp only [activeLoop]
    by_cases h : convergedB (sweep m idxs).1 (sweep m idxs).2
    · simp only [h, if_true]; exact ctxOf_sweep idxs m
    · simp only [h, if_false]; exact (ih (sweep m idxs).1 idxs).trans (ctxOf_sweep idxs m)

theorem ctxOf_elnetLoop (afuel : ℕ) (n : ℕ) :
    ∀ m : Mem, ctxOf (elnetLoop afuel n m).2 = ctxOf m := by
  induction n with
  | zero => intro m; rfl
  | succ k ih =>
    intro m
    simp only [elnetLoop]
    by_cases h : convergedB (sweep m (List.range m.P)).1 (sweep m (List.range m.P)).2
    · simp only [h, if_true]; exact ctxOf_sweep (List.range m.P) m
    · simp only [h, if_false]
      exact (ih _).trans ((ctxOf_activeLoop afuel _ _).trans (ctxOf_sweep (List.range m.P) m))

theorem ctxOf_elnet (afuel n : ℕ) (m : Mem) : ctxOf (elnet afuel n m).2 = ctxOf m :=
  ctxOf_elnetLoop afuel n m

/-- C9: the single-trait solver leaves the inputs declared immutable —
`diag`, `X`, `r`, `adj` (and the scalar penalties, the tolerance and the
dimension) — unchanged on return; in the explicit-state model only the
in-place buffers `x` and `yhat` of the returned memory may differ. -/
theorem claim9_frame (afuel maxiter : ℕ) (m : Mem) :
    (elnet afuel maxiter m).2.diag = m.diag ∧
    (elnet afuel maxiter m).2.X = m.X ∧
    (elnet afuel maxiter m).2.r = m.r ∧
    (elnet afuel maxiter m).2.adj = m.adj := by
  have h := ctxOf_elnet afuel maxiter m
  exact ⟨congrArg (fun t => t.2.2.2.2.2.1) h, congrArg (fun t => t.2.2.2.2.2.2.1) h,
    congrArg (fun t => t.2.2.2.2.2.2.2.1) h, congrArg (fun t => t.2.2.2.2.2.2.2.2) h⟩

/-- C8: when the iteration cap fires, the solver still returns, carrying
the convergence-failure flag, and the returned memory (hence the in-place
buffers `x` and `yhat`) is exactly the state after `maxiter` unconditional
outer rounds — the current best-known state. -/
theorem claim8_cap_nonfatal (afuel maxiter : ℕ) (m : Mem)
    (h : (elnet afuel maxiter m).1 = false) :
    (elnet afuel maxiter m).2 = elnetIter afuel maxiter m := by
  induction maxiter generalizing m with
  | zero => rfl
  | succ k ih =>
    simp only [elnet, elnetLoop] at h ⊢
    by_cases hc : convergedB (sweep m (List.range m.P)).1 (sweep m (List.range m.P)).2
    · simp only [hc, if_true] at h
      exact Bool.noConfusion h
    · simp only [hc, if_false] at h ⊢
      simpa only [elnetIter, elnetStep] using ih _ h

/-- Closed instance of C8: on `memCap` with a single allowed sweep the cap
fires, and the theorem's conclusion holds there. -/
theorem claim8_cap_nonfatal_witness :
    (elnet 0 1 memCap).1 = false ∧ (elnet 0 1 memCap).2 = elnetIter 0 1 memCap :=
  ⟨by with_unfolding_all rfl,
    claim8_cap_nonfatal 0 1 memCap (by with_unfolding_all rfl)⟩

/-! ### The packed-genotype decoder -/

/-- Counterexample to C1's end-to-end scenario: on the spec's own example
file `{0x6C, 0x1B, 0x01, 0b11011011, 0b00011011}` with full subsets, the
decoding rule of §4.1 yields column 0 `{0, 1, 1/3, 0}` (the missing call
at sample 2 is imputed to the mean `1/3`, not `2`) and column 1
`{0, 1, 1, 2}` — and column 1 does contain a missing call (code `01` at
sample 2), contradicting "column 1 … with no NAs" and both claimed value
vectors. -/
theorem claim1_counterexample :
    genotypeMatrix [0x6C, 0x1B, 0x01, 0xDB, 0x1B] 4 2 [] [] [0, 0, 0, 0] [0, 2, 4, 6] =
        [[0, 1, 1/3, 0], [0, 1, 1, 2]] ∧
    genotypeMatrix [0x6C, 0x1B, 0x01, 0xDB, 0x1B] 4 2 [] [] [0, 0, 0, 0] [0, 2, 4, 6] ≠
        [[0, 1, 2, 0], [2, 1, 2, 0]] ∧
    rawCall [0x6C, 0x1B, 0x01, 0xDB, 0x1B] 4 [0, 0, 0, 0] [0, 2, 4, 6] 1 2 = none :=
  of_decide_eq_true (by with_unfolding_all rfl)

/-- C1 as amended: for every packed file, kept variant and kept sample,
`genotypeMatrix` decodes the 2-bit code found at byte offset
`3 + v·⌈N/4⌉ + keepbytes[i]`, shifted right by `keepoffset[i]` and masked
with `0b11`, mapping `00 ↦ 2`, `01 ↦ missing`, `10 ↦ 1`, `11 ↦ 0`, and
imputes the missing calls of a column to its non-missing mean; on the
spec's example file the columns decode to `{0, 1, 1/3, 0}` (one NA imputed
to `1/3`) and `{0, 1, 1, 2}` (one NA imputed to `1`). -/
theorem claim1_amended :
    (∀ (file : List ℕ) (N P : ℕ) (csp cs kb ko : List ℕ) (vIdx : ℕ),
      vIdx < (keptVariants P csp cs).length →
      (genotypeMatrix file N P csp cs kb ko).getD vIdx [] =
        imputeMean ((List.range kb.length).map (fun i =>
          decodeCode ((file.getD
            (3 + (keptVariants P csp cs).getD vIdx 0 * ((N + 3) / 4) + kb.getD i 0) 0 >>>
              ko.getD i 0) &&& 3)))) ∧
    genotypeMatrix [0x6C, 0x1B, 0x01, 0xDB, 0x1B] 4 2 [] [] [0, 0, 0, 0] [0, 2, 4, 6] =
      [[0, 1, 1/3, 0], [0, 1, 1, 2]] := by
  constructor
  · intro file N P csp cs kb ko vIdx h
    have h2 : vIdx < ((keptVariants P csp cs).map (imputedColumn file N kb ko)).length := by
      simpa using h
    rw [genotypeMatrix, List.getD_eq_getElem _ _ h2, List.getElem_map,
      List.getD_eq_getElem _ _ h]
    rfl
  · exact of_decide_eq_true (by with_unfolding_all rfl)

/-- Closed instance of C1's amended decoding rule at the example file,
variant index 0. -/
theorem claim1_amended_witness :
    0 < (keptVariants 2 [] []).length ∧
    (genotypeMatrix [0x6C, 0x1B, 0x01, 0xDB, 0x1B] 4 2 [] [] [0, 0, 0, 0]
        [0, 2, 4, 6]).getD 0 [] =
      imputeMean ((List.range ([0, 0, 0, 0] : List ℕ).length).map (fun i =>
        decodeCode ((([0x6C, 0x1B, 0x01, 0xDB, 0x1B] : List ℕ).getD
          (3 + (keptVariants 2 [] []).getD 0 0 * ((4 + 3) / 4) +
            ([0, 0, 0, 0] : List ℕ).getD i 0) 0 >>>
              ([0, 2, 4, 6] : List ℕ).getD i 0) &&& 3))) :=
  ⟨by decide,
    claim1_amended.1 [0x6C, 0x1B, 0x01, 0xDB, 0x1B] 4 2 [] [] [0, 0, 0, 0] [0, 2, 4, 6] 0
      (by decide)⟩

/-! ### Column standardization -/

theorem sum_map_sub (g : List ℝ) (c : ℝ) :
    (g.map (fun v => v - c)).sum = g.sum - g.length * c := by
  induction g with
  | nil => simp
  | cons a t ih => simp [ih]; ring

theorem sum_map_div (g : List ℝ) (s : ℝ) :
    (g.map (fun v => v / s)).sum = g.sum / s := by
  induction g with
  | nil => simp
  | cons a t ih => simp [ih, add_div]

theorem colMean_shift_scale (g : List ℝ) (s : ℝ) (hn : (g.length : ℝ) ≠ 0) :
    colMean (g.map (fun v => (v - colMean g) / s)) = 0 := by
  have hmm : (g.map (fun v => (v - colMean g) / s)) =
      (g.map (fun v => v - colMean g)).map (fun v => v / s) := by
    rw [List.map_map]; rfl
  rw [hmm, colMean, sum_map_div, sum_map_sub, List.length_map, List.length_map]
  have h0 : (g.length : ℝ) * (g.sum / g.length) = g.sum := by
    field_simp
  rw [colMean, h0, sub_self, zero_div, zero_div]

theorem sigmaHat_nil : sigmaHat ([] : List ℝ) = 0 := by
  simp [sigmaHat, pHat, colMean]

theorem two_pHat (g : List ℝ) : 2 * pHat g = colMean g := by
  unfold pHat; ring

theorem normalizeCol_of_pos (g : List ℝ) (hs : 0 < sigmaHat g) :
    normalizeCol g = g.map (fun v => (v - colMean g) / sigmaHat g) := by
  rw [normalizeCol, if_pos hs]
  congr 1
  funext v
  rw [two_pHat]

theorem normalizeCol_mean_zero (g : List ℝ) (hs : 0 < sigmaHat g) :
    colMean (normalizeCol g) = 0 := by
  have hne : g ≠ [] := by
    intro h; rw [h, sigmaHat_nil] at hs; exact lt_irrefl 0 hs
  have hn : (g.length : ℝ) ≠ 0 := by
    have := List.length_pos.mpr hne
    positivity
  rw [normalizeCol_of_pos g hs]
  exact colMean_shift_scale g (sigmaHat g) hn

theorem normalizeCol_popVar (g : List ℝ) (hs : 0 < sigmaHat g) :
    popVar (normalizeCol g) = popVar g / (2 * pHat g * (1 - pHat g)) := by
  have hs' : 0 < Real.sqrt (2 * pHat g * (1 - pHat g)) := hs
  have harg : 0 < 2 * pHat g * (1 - pHat g) := Real.sqrt_pos.mp hs'
  have hsq : sigmaHat g ^ 2 = 2 * pHat g * (1 - pHat g) := Real.sq_sqrt harg.le
  rw [popVar, normalizeCol_mean_zero g hs, normalizeCol_of_pos g hs, List.length_map]
  have hmm : ((g.map (fun v => (v - colMean g) / sigmaHat g)).map (fun v => (v - 0) ^ 2)) =
      (g.map (fun v => (v - colMean g) ^ 2)).map (fun v => v / sigmaHat g ^ 2) := by
    rw [List.map_map, List.map_map]
    congr 1
    funext v
    simp [div_pow]
  rw [hmm, sum_map_div, popVar, hsq]
  ring

/-- Counterexample to C3's "variance 1" consequence: the column
`{0, 0, 2, 2}` has `p̂ = 1/2`, so `σ = √(1/2) > 0`, yet after centering by
`2p̂ = 1` and dividing by `σ` its population variance is `2`, not `1` (the
binomial variance `2p̂(1−p̂)` is not the empirical variance). -/
theorem claim3_counterexample :
    0 < sigmaHat [0, 0, 2, 2] ∧
    popVar (normalizeCol [0, 0, 2, 2]) = 2 ∧
    popVar (normalizeCol [0, 0, 2, 2]) ≠ 1 := by
  have hm : colMean ([0, 0, 2, 2] : List ℝ) = 1 := by
    norm_num [colMean, List.sum_cons, List.sum_nil]
  have hp : pHat ([0, 0, 2, 2] : List ℝ) = 1/2 := by
    rw [pHat, hm]
  have hpos : 0 < sigmaHat ([0, 0, 2, 2] : List ℝ) := by
    have h : sigmaHat ([0, 0, 2, 2] : List ℝ) = Real.sqrt (1/2) := by
      rw [sigmaHat, hp]; norm_num
    rw [h]; exact Real.sqrt_pos.mpr (by norm_num)
  have hv : popVar ([0, 0, 2, 2] : List ℝ) = 1 := by
    rw [popVar, hm]
    norm_num [List.sum_cons, List.sum_nil]
  have hvar := normalizeCol_popVar [0, 0, 2, 2] hpos
  rw [hv, hp] at hvar
  norm_num at hvar
  exact ⟨hpos, hvar, by rw [hvar]; norm_num⟩

/-- C3 as amended: `normalize` centers each column by `2·p̂`, divides by
`σ = √(2p̂(1−p̂))` when `σ > 0` and zeroes the column when `σ = 0`,
returning `σ` per column; a column with `σ > 0` has mean exactly `0` after
standardization, and its variance equals the column's population variance
divided by `2p̂(1−p̂)` — which is `1` only when the empirical variance
coincides with the binomial variance, not in general. -/
theorem claim3_amended :
    (∀ g : List ℝ, 0 < sigmaHat g →
      colMean (normalizeCol g) = 0 ∧
      popVar (normalizeCol g) = popVar g / (2 * pHat g * (1 - pHat g))) ∧
    (∀ g : List ℝ, sigmaHat g = 0 → normalizeCol g = g.map (fun _ => 0)) ∧
    (∀ gs : List (List ℝ), normalize gs = (gs.map normalizeCol, gs.map sigmaHat)) := by
  refine ⟨fun g hs => ⟨normalizeCol_mean_zero g hs, normalizeCol_popVar g hs⟩, ?_, fun _ => rfl⟩
  intro g hs
  rw [normalizeCol, if_neg (by rw [hs]; exact lt_irrefl 0)]

/-- Closed instance of C3's amended statement on the column `{0, 2}`. -/
theorem claim3_amended_witness :
    0 < sigmaHat [0, 2] ∧
    (colMean (normalizeCol [0, 2]) = 0 ∧
      popVar (normalizeCol [0, 2]) = popVar [0, 2] / (2 * pHat [0, 2] * (1 - pHat [0, 2]))) := by
  have hm : colMean ([0, 2] : List ℝ) = 1 := by
    norm_num [colMean, List.sum_cons, List.sum_nil]
  have hp : pHat ([0, 2] : List ℝ) = 1/2 := by
    rw [pHat, hm]
  have hpos : 0 < sigmaHat ([0, 2] : List ℝ) := by
    have h : sigmaHat ([0, 2] : List ℝ) = Real.sqrt (1/2) := by
      rw [sigmaHat, hp]; norm_num
    rw [h]; exact Real.sqrt_pos.mpr (by norm_num)
  exact ⟨hpos, claim3_amended.1 [0, 2] hpos⟩

/-! ### Solver stationarity at convergence -/

theorem xlen_updateCoord (m : Mem) (j : ℕ) : (updateCoord m j).x.length = m.x.length := by
  simp [updateCoord]

theorem xlen_sweep (idxs : List ℕ) : ∀ m : Mem, (sweep m idxs).1.x.length = m.x.length := by
  induction idxs with
  | nil => intro m; rfl
  | cons j rest ih => intro m; exact (ih (updateCoord m j)).trans (xlen_updateCoord m j)

theorem xlen_activeLoop (fuel : ℕ) :
    ∀ (m : Mem) (idxs : List ℕ), (activeLoop fuel m idxs).x.length = m.x.length := by
  induction fuel with
  | zero => intro m idxs; rfl
  | succ f ih =>
    intro m idxs
    simp only [activeLoop]
    by_cases h : convergedB (sweep m idxs).1 (sweep m idxs).2
    · simp only [h, if_true]; exact xlen_sweep idxs m
    · simp only [h, if_false]; exact (ih (sweep m idxs).1 idxs).trans (xlen_sweep idxs m)

/-- If the solver reports convergence, the final memory is the outcome of
one last full sweep, from some reachable memory with the same immutable
inputs, and that sweep passed the convergence test. -/
theorem elnetLoop_conv (afuel : ℕ) (n : ℕ) :
    ∀ m s : Mem, elnetLoop afuel n m = (true, s) →
    ∃ m₀ : Mem, ctxOf m₀ = ctxOf m ∧ m₀.x.length = m.x.length ∧
      (sweep m₀ (List.range m.P)).1 = s ∧
      convergedB (sweep m₀ (List.range m.P)).1 (sweep m₀ (List.range m.P)).2 = true := by
  induction n with
  | zero =>
    intro m s h
    exact absurd (congrArg Prod.fst h) (by simp [elnetLoop])
  | succ k ih =>
    intro m s h
    simp only [elnetLoop] at h
    by_cases hc : convergedB (sweep m (List.range m.P)).1 (sweep m (List.range m.P)).2
    · simp only [hc, if_true] at h
      exact ⟨m, rfl, rfl, congrArg Prod.snd h, hc⟩
    · simp only [hc, if_false] at h
      obtain ⟨m₀, hctx, hxlen, hs, hconv⟩ := ih _ _ h
      have hchain :
          ctxOf (activeLoop afuel (sweep m (List.range m.P)).1
            (activeSet (sweep m (List.range m.P)).1)) = ctxOf m :=
        (ctxOf_activeLoop afuel _ _).trans (ctxOf_sweep (List.range m.P) m)
      have hP : (activeLoop afuel (sweep m (List.range m.P)).1
          (activeSet (sweep m (List.range m.P)).1)).P = m.P :=
        congrArg (fun t => t.2.2.2.2.1) hchain
      have hxchain :
          (activeLoop afuel (sweep m (List.range m.P)).1
            (activeSet (sweep m (List.range m.P)).1)).x.length = m.x.length :=
        (xlen_activeLoop afuel _ _).trans (xlen_sweep (List.range m.P) m)
      refine ⟨m₀, hctx.trans hchain, hxlen.trans hxchain, ?_, ?_⟩
      · rw [← hP]; exact hs
      · rw [← hP]; exact hconv

theorem sweep_state_append (l₁ l₂ : List ℕ) :
    ∀ m : Mem, (sweep m (l₁ ++ l₂)).1 = (sweep (sweep m l₁).1 l₂).1 := by
  induction l₁ with
  | nil => intro m; rfl
  | cons i t ih => intro m; exact ih (updateCoord m i)

theorem sweep_x_of_notmem (idxs : List ℕ) (j : ℕ) (hj : j ∉ idxs) :
    ∀ m : Mem, (sweep m idxs).1.x.getD j 0 = m.x.getD j 0 := by
  induction idxs with
  | nil => intro m; rfl
  | cons i rest ih =>
    intro m
    have hij : i ≠ j := fun h => hj (h ▸ List.mem_cons_self i rest)
    have hjr : j ∉ rest := fun h => hj (List.mem_cons_of_mem _ h)
    have h1 : (sweep m (i :: rest)).1.x.getD j 0 = (updateCoord m i).x.getD j 0 := ih hjr _
    rw [h1]
    show ((m.x.set i (updateVal m i)).getD j 0) = m.x.getD j 0
    rw [List.getD_eq_getElem?_getD, List.getElem?_set, if_neg hij,
      ← List.getD_eq_getElem?_getD]

/-- After a full sweep over `0 … P−1`, the value at coordinate `j` is the
soft-threshold update evaluated at the mid-sweep iterate in which the
coordinates before `j` are already updated and `j` and the later ones are
not. -/
theorem sweep_range_midstate (P j : ℕ) (hj : j < P) (m₀ : Mem) (hlen : j < m₀.x.length) :
    (sweep m₀ (List.range P)).1.x.getD j 0 = updateVal (sweep m₀ (List.range j)).1 j := by
  have hsplit : List.range P = List.range' 0 j ++ j :: List.range' (j + 1) (P - j - 1) := by
    have h1 := List.range'_append 0 j (P - j) 1
    have h2 : List.range' j (P - j) = j :: List.range' (j + 1) (P - j - 1) := by
      have : P - j = (P - j - 1) + 1 := by omega
      rw [this, List.range'_succ]
      simp
    rw [List.range_eq_range']
    have h3 : (P - j) + j = P := by omega
    rw [← h3]
    rw [← h1]
    simp [h2]
  rw [hsplit, sweep_state_append]
  have hnot : j ∉ List.range' (j + 1) (P - j - 1) := by
    intro hmem
    obtain ⟨i, _, hi⟩ := List.mem_range'.mp hmem
    omega
  have h4 : (sweep (sweep m₀ (List.range' 0 j)).1 (j :: List.range' (j + 1) (P - j - 1))).1 =
      (sweep (updateCoord (sweep m₀ (List.range' 0 j)).1 j)
        (List.range' (j + 1) (P - j - 1))).1 := rfl
  rw [h4, sweep_x_of_notmem _ j hnot]
  have hlen2 : j < (sweep m₀ (List.range' 0 j)).1.x.length := by
    rw [xlen_sweep]; exact hlen
  show (((sweep m₀ (List.range' 0 j)).1.x.set j
      (updateVal (sweep m₀ (List.range' 0 j)).1 j)).getD j 0) = _
  rw [List.getD_eq_getElem?_getD, List.getElem?_set, if_pos rfl, if_pos hlen2]
  rw [List.range_eq_range']
  rfl

set_option maxRecDepth 10000 in
/-- Counterexample to C2 as stated: on `memCorr` (two strongly correlated
columns) the solver converges, yet the stationarity residual of coordinate
0 at the returned β is about `1.47`, far above `thr = 1/4`: the returned
coefficients satisfy the soft-threshold equation only at the mid-sweep
iterates, not at the final iterate. -/
theorem claim2_counterexample :
    (elnet 0 10 memCorr).1 = true ∧
    ¬ (resid (elnet 0 10 memCorr).2 0 ≤ memCorr.thr) :=
  of_decide_eq_true (by with_unfolding_all rfl)

/-- C2 as amended: whenever the solver converges, the final memory is the
outcome of a last full sweep whose maximum absolute coefficient change is
at most `thr · (1 + max|β|)`, and every coordinate `j` equals the
soft-threshold update `S(r_j + d_j β_j − g_j(β), λ1·a_j)/(d_j + λ2)`
evaluated exactly at the mid-sweep iterate of that sweep (coordinates
before `j` updated, `j` and later ones not) — rather than within `thr` of
the update evaluated at the final iterate. -/
theorem claim2_amended (afuel n : ℕ) (m s : Mem) (hx : m.x.length = m.P)
    (h : elnet afuel n m = (true, s)) :
    ∃ m₀ : Mem, ctxOf m₀ = ctxOf m ∧
      (sweep m₀ (List.range m.P)).1 = s ∧
      (sweep m₀ (List.range m.P)).2 ≤ m.thr * (1 + maxAbsQ s.x) ∧
      ∀ j : ℕ, j < m.P → s.x.getD j 0 = updateVal (sweep m₀ (List.range j)).1 j := by
  obtain ⟨m₀, hctx, hxlen, hs, hconv⟩ := elnetLoop_conv afuel n m s h
  have hthr : s.thr = m.thr := by
    have h1 : ctxOf s = ctxOf m := by
      rw [← hs]
      exact (ctxOf_sweep (List.range m.P) m₀).trans hctx
    exact congrArg (fun t => t.2.2.2.1) h1
  refine ⟨m₀, hctx, hs, ?_, ?_⟩
  · have hle := of_decide_eq_true hconv
    rw [hs, hthr] at hle
    exact hle
  · intro j hj
    rw [← hs]
    exact sweep_range_midstate m.P j hj m₀ (by rw [hxlen, hx]; exact hj)

/-- Closed instance of C2's amended statement on the converging instance
`memTiny`. -/
theorem claim2_amended_witness :
    memTiny.x.length = memTiny.P ∧
    (∃ m₀ : Mem, ctxOf m₀ = ctxOf memTiny ∧
      (sweep m₀ (List.range memTiny.P)).1 = { memTiny with x := [1/2], yhat := [1/2] } ∧
      (sweep m₀ (List.range memTiny.P)).2 ≤
        memTiny.thr * (1 + maxAbsQ ({ memTiny with x := [1/2], yhat := [1/2] } : Mem).x) ∧
      ∀ j : ℕ, j < memTiny.P →
        ({ memTiny with x := [1/2], yhat := [1/2] } : Mem).x.getD j 0 =
          updateVal (sweep m₀ (List.range j)).1 j) :=
  ⟨rfl, claim2_amended 1 5 memTiny { memTiny with x := [1/2], yhat := [1/2] } rfl
    (by with_unfolding_all rfl)⟩

/-! ### Block partitioning does not change the solver's result -/

theorem sweep_ch_nonneg (idxs : List ℕ) : ∀ m : Mem, 0 ≤ (sweep m idxs).2 := by
  induction idxs with
  | nil => intro m; exact le_refl 0
  | cons j rest ih =>
    intro m
    exact le_trans (ih (updateCoord m j)) (le_max_right _ _)

theorem sweep_ch_append (l₁ l₂ : List ℕ) :
    ∀ m : Mem, (sweep m (l₁ ++ l₂)).2 =
      max (sweep m l₁).2 (sweep (sweep m l₁).1 l₂).2 := by
  induction l₁ with
  | nil =>
    intro m
    show (sweep m l₂).2 = max 0 (sweep m l₂).2
    rw [max_eq_right (sweep_ch_nonneg l₂ m)]
  | cons i t ih =>
    intro m
    show max |(updateCoord m i).x.getD i 0 - m.x.getD i 0|
        (sweep (updateCoord m i) (t ++ l₂)).2 = _
    rw [ih (updateCoord m i)]
    show max _ (max _ _) = max (max _ _) _
    rw [max_assoc]
    rfl

theorem sweepSeq_eq_flatten (lss : List (List ℕ)) :
    ∀ m : Mem, sweepSeq m lss = sweep m lss.flatten := by
  induction lss with
  | nil => intro m; rfl
  | cons l ls ih =>
    intro m
    refine Prod.ext ?_ ?_
    · show (sweepSeq (sweep m l).1 ls).1 = (sweep m (l ++ ls.flatten)).1
      rw [ih (sweep m l).1, sweep_state_append]
    · show max (sweep m l).2 (sweepSeq (sweep m l).1 ls).2 = (sweep m (l ++ ls.flatten)).2
      rw [ih (sweep m l).1, sweep_ch_append]

theorem partitionB_le : ∀ (bs : List (ℕ × ℕ)) (lo hi : ℕ),
    isPartitionB lo bs hi = true → lo ≤ hi := by
  intro bs
  induction bs with
  | nil => intro lo hi h; simp [isPartitionB] at h; omega
  | cons b t ih =>
    intro lo hi h
    simp only [isPartitionB, Bool.and_eq_true, decide_eq_true_eq] at h
    have := ih (b.2 + 1) hi h.2
    omega

theorem partition_flatten : ∀ (bs : List (ℕ × ℕ)) (lo hi : ℕ),
    isPartitionB lo bs hi = true →
    (bs.map blockFull).flatten = List.range' lo (hi - lo) := by
  intro bs
  induction bs with
  | nil =>
    intro lo hi h
    simp [isPartitionB] at h
    simp [h]
  | cons b t ih =>
    intro lo hi h
    simp only [isPartitionB, Bool.and_eq_true, decide_eq_true_eq] at h
    obtain ⟨⟨hs, hle⟩, hrest⟩ := h
    have hhi := partitionB_le t (b.2 + 1) hi hrest
    show blockFull b ++ (t.map blockFull).flatten = _
    rw [ih (b.2 + 1) hi hrest]
    rw [blockFull, hs]
    have h1 := List.range'_append lo (b.2 + 1 - lo) (hi - (b.2 + 1)) 1
    have h2 : lo + 1 * (b.2 + 1 - lo) = b.2 + 1 := by omega
    have h3 : hi - (b.2 + 1) + (b.2 + 1 - lo) = hi - lo := by omega
    rw [h2, h3] at h1
    exact h1

theorem activeLoopB_eq_activeLoop (lss : List (List ℕ)) (A : List ℕ)
    (hA : lss.flatten = A) : ∀ (fuel : ℕ) (m : Mem),
    activeLoopB lss fuel m = activeLoop fuel m A := by
  intro fuel
  induction fuel with
  | zero => intro m; rfl
  | succ f ih =>
    intro m
    have hsw : sweepSeq m lss = sweep m A := by rw [sweepSeq_eq_flatten, hA]
    simp only [activeLoopB, activeLoop, hsw]
    by_cases h : convergedB (sweep m A).1 (sweep m A).2
    · simp only [h, if_true]
    · simp only [h, if_false]; exact ih (sweep m A).1

theorem repelnetLoop_eq_elnetLoop (blocks : List (ℕ × ℕ)) (afuel : ℕ) :
    ∀ (k : ℕ) (m : Mem), isPartitionB 0 blocks m.P = true →
    repelnetLoop blocks afuel k m = elnetLoop afuel k m := by
  intro k
  induction k with
  | zero => intro m _; rfl
  | succ n ih =>
    intro m hpart
    have hfl : (blocks.map blockFull).flatten = List.range m.P := by
      rw [partition_flatten blocks 0 m.P hpart, List.range_eq_range']
      simp
    have hfull : sweepSeq m (blocks.map blockFull) = sweep m (List.range m.P) := by
      rw [sweepSeq_eq_flatten, hfl]
    simp only [repelnetLoop, elnetLoop, hfull]
    by_cases hc : convergedB (sweep m (List.range m.P)).1 (sweep m (List.range m.P)).2
    · simp only [hc, if_true]
    · simp only [hc, if_false]
      have hP : (sweep m (List.range m.P)).1.P = m.P :=
        congrArg (fun t => t.2.2.2.2.1) (ctxOf_sweep (List.range m.P) m)
      have hact : (blocks.map (fun b => (blockFull b).filter
          (fun j => decide ((sweep m (List.range m.P)).1.x.getD j 0 ≠ 0)))).flatten =
          activeSet (sweep m (List.range m.P)).1 := by
        have hmm : blocks.map (fun b => (blockFull b).filter
            (fun j => decide ((sweep m (List.range m.P)).1.x.getD j 0 ≠ 0))) =
            (blocks.map blockFull).map (List.filter
              (fun j => decide ((sweep m (List.range m.P)).1.x.getD j 0 ≠ 0))) := by
          rw [List.map_map]
          rfl
        rw [hmm, ← List.filter_flatten, hfl, activeSet, hP]
      rw [activeLoopB_eq_activeLoop _ _ hact afuel]
      apply ih
      have hP2 : (activeLoop afuel (sweep m (List.range m.P)).1
          (activeSet (sweep m (List.range m.P)).1)).P = m.P :=
        congrArg (fun t => t.2.2.2.2.1)
          ((ctxOf_activeLoop afuel _ _).trans (ctxOf_sweep (List.range m.P) m))
      rw [hP2]
      exact hpart

/-- C5: for every input and every contiguous inclusive block partition of
`[0, P)`, the block-partitioned solver returns exactly the plain solver's
result — in particular the final coefficient vectors agree to within `thr`
in every coordinate. -/
theorem claim5_block_equiv (startvec endvec : List ℕ) (afuel maxiter : ℕ) (m : Mem)
    (hpart : isPartitionB 0 (startvec.zip endvec) m.P = true) (hthr : 0 ≤ m.thr) :
    repelnet startvec endvec afuel maxiter m = elnet afuel maxiter m ∧
    ∀ j : ℕ, |(repelnet startvec endvec afuel maxiter m).2.x.getD j 0 -
      (elnet afuel maxiter m).2.x.getD j 0| ≤ m.thr := by
  have heq : repelnet startvec endvec afuel maxiter m = elnet afuel maxiter m :=
    repelnetLoop_eq_elnetLoop (startvec.zip endvec) afuel maxiter m hpart
  refine ⟨heq, fun j => ?_⟩
  rw [heq, sub_self, abs_zero]
  exact hthr

/-- Closed instance of C5 on `memBlk` with the two-block partition
`{[0,0], [1,1]}`. -/
theorem claim5_block_equiv_witness :
    isPartitionB 0 ([0, 1].zip [0, 1]) memBlk.P = true ∧ 0 ≤ memBlk.thr ∧
    repelnet [0, 1] [0, 1] 3 20 memBlk = elnet 3 20 memBlk :=
  ⟨by with_unfolding_all rfl, by with_unfolding_all rfl,
    (claim5_block_equiv [0, 1] [0, 1] 3 20 memBlk (by with_unfolding_all rfl)
      (by with_unfolding_all rfl)).1⟩

/-! ### Cross-trait symmetry -/

set_option maxRecDepth 200000 in
/-- Counterexample to C6 as stated: on `dcSym` — two traits with identical
inputs, uniform coupling weight 1, `lambda_ct = 1/5` — the driver
converges, yet the two trait columns of β differ by about `0.152`, which
exceeds `thr = 1/10`: the sequential Gauss–Seidel order over traits leaves
an asymmetry larger than the tolerance. -/
theorem claim6_counterexample :
    ((runElnetCore dcSym [1/5] psT2).headD (0, false, psT2)).2.1 = true ∧
    ¬ (maxAbsDiff ((((runElnetCore dcSym [1/5] psT2).headD (0, false, psT2)).2.2).B.getD 0 [])
        ((((runElnetCore dcSym [1/5] psT2).headD (0, false, psT2)).2.2).B.getD 1 []) ≤
      dcSym.thr) :=
  of_decide_eq_true (by with_unfolding_all rfl)

set_option maxRecDepth 200000 in
/-- C6 as amended: with uniform coupling weights and identical per-trait
inputs the converged trait columns of β need not be equal within `thr` in
general (see the counterexample), but they are on the concrete two-trait
instance `dcSymOk` (orthogonal design, identical `r` columns, `w = 1`,
coupling on). -/
theorem claim6_amended :
    ((runElnetCore dcSymOk [1/10] psT2).headD (0, false, psT2)).2.1 = true ∧
    maxAbsDiff ((((runElnetCore dcSymOk [1/10] psT2).headD (0, false, psT2)).2.2).B.getD 0 [])
        ((((runElnetCore dcSymOk [1/10] psT2).headD (0, false, psT2)).2.2).B.getD 1 []) ≤
      dcSymOk.thr :=
  of_decide_eq_true (by with_unfolding_all rfl)

/-! ### Shrinkage monotonicity along the path -/

set_option maxRecDepth 400000 in
/-- Counterexample to C7 as stated: on `dcPath` the warm-started path
`{1, 1/2, 1/10}` converges at every point but its non-zero counts are
`1, 2, 1`: decreasing `lambda1` from `1/2` to `1/10` drops a coefficient
out of the support. -/
theorem claim7_counterexample :
    (runElnetCore dcPath [1, 1/2, 1/10] psT3).map (fun q => q.2.1) = [true, true, true] ∧
    (runElnetCore dcPath [1, 1/2, 1/10] psT3).map
      (fun q => nnzCount (q.2.2.B.getD 0 [])) = [1, 2, 1] ∧
    ¬ (nnzCount ((((runElnetCore dcPath [1, 1/2, 1/10] psT3).getD 1
          (0, false, psT3)).2.2).B.getD 0 []) ≤
        nnzCount ((((runElnetCore dcPath [1, 1/2, 1/10] psT3).getD 2
          (0, false, psT3)).2.2).B.getD 0 [])) :=
  of_decide_eq_true (by with_unfolding_all rfl)

set_option maxRecDepth 200000 in
/-- C7 as amended: along a decreasing L1 path the number of non-zeros (and
the L1 norm) can decrease in general (see the counterexample); on the
concrete orthogonal instance `dcPathOk` with the spec's sequence
`{1, 1/2, 1/10}` both are non-decreasing. -/
theorem claim7_amended :
    (runElnetCore dcPathOk [1, 1/2, 1/10] psT1).map (fun q => q.2.1) = [true, true, true] ∧
    (runElnetCore dcPathOk [1, 1/2, 1/10] psT1).map
      (fun q => nnzCount (q.2.2.B.getD 0 [])) = [0, 1, 2] ∧
    (runElnetCore dcPathOk [1, 1/2, 1/10] psT1).map
      (fun q => l1Norm (q.2.2.B.getD 0 [])) = [0, 1/5, 4/5] :=
  of_decide_eq_true (by with_unfolding_all rfl)

/-! ### Sparse/dense kernel agreement -/

theorem getD_set_self {α : Type} (l : List α) (i : ℕ) (a d : α) (h : i < l.length) :
    (l.set i a).getD i d = a := by
  rw [List.getD_eq_getElem?_getD, List.getElem?_set, if_pos rfl, if_pos h]
  rfl

theorem getD_set_ne {α : Type} (l : List α) (i j : ℕ) (a d : α) (h : i ≠ j) :
    (l.set i a).getD j d = l.getD j d := by
  rw [List.getD_eq_getElem?_getD, List.getElem?_set, if_neg h, ← List.getD_eq_getElem?_getD]

theorem getD_replicate_zero (n c : ℕ) : (List.replicate n (0 : ℚ)).getD c 0 = 0 := by
  rw [List.getD_eq_getElem?_getD, List.getElem?_replicate]
  by_cases h : c < n
  · rw [if_pos h]; rfl
  · rw [if_neg h]; rfl

theorem getE_zeroMat (pk nc i c : ℕ) : getE (zeroMat pk nc) i c = 0 := by
  unfold getE zeroMat
  rw [List.getD_eq_getElem?_getD (List.replicate pk (List.replicate nc (0 : ℚ))) i [],
    List.getElem?_replicate]
  by_cases h : i < pk
  · rw [if_pos h]
    show (List.replicate nc (0 : ℚ)).getD c 0 = 0
    exact getD_replicate_zero nc c
  · rw [if_neg h]
    rfl

theorem length_scatterB (ts : List (ℚ × ℕ × ℕ)) (pk nc : ℕ) :
    (scatterB ts pk nc).length = pk := by
  induction ts with
  | nil => simp [scatterB, zeroMat]
  | cons t ts ih => simp [scatterB, setMat, ih]

theorem rowlen_scatterB (ts : List (ℚ × ℕ × ℕ)) (pk nc : ℕ) :
    ∀ i : ℕ, i < pk → ((scatterB ts pk nc).getD i []).length = nc := by
  induction ts with
  | nil =>
    intro i h
    show ((zeroMat pk nc).getD i []).length = nc
    unfold zeroMat
    rw [List.getD_eq_getElem?_getD, List.getElem?_replicate, if_pos h]
    simp
  | cons t ts ih =>
    intro i h
    show (((scatterB ts pk nc).set t.2.1
      ((( scatterB ts pk nc).getD t.2.1 []).set t.2.2 t.1)).getD i []).length = nc
    by_cases hv : t.2.1 = i
    · subst hv
      have hlen : t.2.1 < (scatterB ts pk nc).length := by
        rw [length_scatterB]; exact h
      rw [getD_set_self _ _ _ _ hlen, List.length_set]
      exact ih t.2.1 h
    · rw [getD_set_ne _ _ _ _ _ hv]
      exact ih i h

theorem getE_setMat_ne (B : List (List ℚ)) (v c i j : ℕ) (b : ℚ)
    (h : v ≠ i ∨ c ≠ j) : getE (setMat B v c b) i j = getE B i j := by
  unfold getE setMat
  rcases h with h | h
  · rw [getD_set_ne _ _ _ _ _ h]
  · by_cases hv : v = i
    · subst hv
      by_cases hlen : v < B.length
      · rw [getD_set_self _ _ _ _ hlen, getD_set_ne _ _ _ _ _ h]
      · rw [List.set_eq_of_length_le (le_of_not_lt hlen)]
    · rw [getD_set_ne _ _ _ _ _ hv]

theorem getE_setMat_self (B : List (List ℚ)) (v c : ℕ) (b : ℚ)
    (hv : v < B.length) (hc : c < (B.getD v []).length) :
    getE (setMat B v c b) v c = b := by
  unfold getE setMat
  rw [getD_set_self _ _ _ _ hv, getD_set_self _ _ _ _ hc]

theorem getE_scatterB_of_notmem (ts : List (ℚ × ℕ × ℕ)) (pk nc v c : ℕ)
    (h : (v, c) ∉ ts.map (fun t => (t.2.1, t.2.2))) :
    getE (scatterB ts pk nc) v c = 0 := by
  induction ts with
  | nil => exact getE_zeroMat pk nc v c
  | cons t ts ih =>
    rw [List.map_cons, List.mem_cons] at h
    push_neg at h
    show getE (setMat (scatterB ts pk nc) t.2.1 t.2.2 t.1) v c = 0
    have hne : t.2.1 ≠ v ∨ t.2.2 ≠ c := by
      by_contra hcon
      push_neg at hcon
      exact h.1 (Prod.ext hcon.1.symm hcon.2.symm)
    rw [getE_setMat_ne _ _ _ _ _ _ hne]
    exact ih h.2

/-- The heart of C4: for any entry function `f` of the decoded genotype
values, streaming the triplets equals the dense product against the
scattered matrix `B`. -/
theorem sp_sum_eq (f : ℕ → ℚ) (c : ℕ) (ts : List (ℚ × ℕ × ℕ)) :
    ∀ pk nc : ℕ,
    (∀ t ∈ ts, t.2.1 < pk ∧ t.2.2 < nc) →
    (ts.map (fun t => (t.2.1, t.2.2))).Nodup →
    (ts.map (fun t => if t.2.2 = c then f t.2.1 * t.1 else 0)).sum =
      ∑ v ∈ Finset.range pk, f v * getE (scatterB ts pk nc) v c := by
  induction ts with
  | nil =>
    intro pk nc _ _
    simp [scatterB, getE_zeroMat]
  | cons t ts ih =>
    intro pk nc hrange hnodup
    have hrt := hrange t (List.mem_cons_self t ts)
    have hrange' : ∀ u ∈ ts, u.2.1 < pk ∧ u.2.2 < nc :=
      fun u hu => hrange u (List.mem_cons_of_mem _ hu)
    rw [List.map_cons] at hnodup
    have hnot : (t.2.1, t.2.2) ∉ ts.map (fun u => (u.2.1, u.2.2)) :=
      (List.nodup_cons.mp hnodup).1
    have hnodup' := (List.nodup_cons.mp hnodup).2
    rw [List.map_cons, List.sum_cons, ih pk nc hrange' hnodup']
    show _ = ∑ v ∈ Finset.range pk, f v * getE (setMat (scatterB ts pk nc) t.2.1 t.2.2 t.1) v c
    by_cases hcc : t.2.2 = c
    · subst hcc
      rw [if_pos rfl]
      have hz : getE (scatterB ts pk nc) t.2.1 t.2.2 = 0 :=
        getE_scatterB_of_notmem ts pk nc t.2.1 t.2.2 hnot
      have hpoint : ∀ v ∈ Finset.range pk,
          f v * getE (setMat (scatterB ts pk nc) t.2.1 t.2.2 t.1) v t.2.2 =
            f v * getE (scatterB ts pk nc) v t.2.2 +
              (if v = t.2.1 then f t.2.1 * t.1 else 0) := by
        intro v _
        by_cases hvv : v = t.2.1
        · subst hvv
          rw [if_pos rfl,
            getE_setMat_self _ _ _ _ (by rw [length_scatterB]; exact hrt.1)
              (by rw [rowlen_scatterB ts pk nc _ hrt.1]; exact hrt.2),
            hz, mul_zero, zero_add]
        · rw [if_neg hvv,
            getE_setMat_ne _ _ _ _ _ _ (Or.inl (fun he => hvv he.symm)), add_zero]
      rw [Finset.sum_congr rfl hpoint, Finset.sum_add_distrib,
        Finset.sum_ite_eq' (Finset.range pk) t.2.1 (fun _ => f t.2.1 * t.1),
        if_pos (Finset.mem_range.mpr hrt.1)]
      ring
    · rw [if_neg hcc, zero_add]
      refine Finset.sum_congr rfl (fun v _ => ?_)
      rw [getE_setMat_ne _ _ _ _ _ _ (Or.inr hcc)]

/-- C4: the sparse kernel applied to `(beta, nonzeros, colpos, ncol)`
returns exactly the dense kernel applied to the `P_kept × ncol` matrix `B`
whose only non-zero entries are `beta`'s values placed at positions
`(nonzeros[k], colpos[k])`; both decode, subset and impute identically and
are pure functions of their inputs. -/
theorem claim4_sparse_dense_equiv (file : List ℕ) (N P : ℕ) (beta : List ℚ)
    (nonzeros colpos : List ℕ) (ncol : ℕ) (csp cs kb ko : List ℕ)
    (hrange : ∀ t ∈ beta.zip (nonzeros.zip colpos),
      t.2.1 < (keptVariants P csp cs).length ∧ t.2.2 < ncol)
    (hnodup : ((beta.zip (nonzeros.zip colpos)).map (fun t => (t.2.1, t.2.2))).Nodup)
    (hpk : 0 < (keptVariants P csp cs).length) :
    multiBed3sp file N P beta nonzeros colpos ncol csp cs kb ko =
      multiBed3 file N P
        (scatterB (beta.zip (nonzeros.zip colpos)) (keptVariants P csp cs).length ncol)
        csp cs kb ko := by
  have hM : ((scatterB (beta.zip (nonzeros.zip colpos))
      (keptVariants P csp cs).length ncol).getD 0 []).length = ncol :=
    rowlen_scatterB _ _ _ 0 hpk
  simp only [multiBed3sp, multiBed3, hM]
  refine List.map_congr_left (fun i _ => ?_)
  refine List.map_congr_left (fun c _ => ?_)
  exact sp_sum_eq
    (fun v => (imputedColumn file N kb ko ((keptVariants P csp cs).getD v 0)).getD i 0) c
    (beta.zip (nonzeros.zip colpos)) (keptVariants P csp cs).length ncol hrange hnodup

/-- Closed instance of C4 on the example file with two triplets. -/
theorem claim4_sparse_dense_equiv_witness :
    (∀ t ∈ ([1/2, 3] : List ℚ).zip (([1, 0] : List ℕ).zip ([0, 0] : List ℕ)),
      t.2.1 < (keptVariants 2 [] []).length ∧ t.2.2 < 1) ∧
    ((([1/2, 3] : List ℚ).zip (([1, 0] : List ℕ).zip ([0, 0] : List ℕ))).map
      (fun t => (t.2.1, t.2.2))).Nodup ∧
    multiBed3sp [0x6C, 0x1B, 0x01, 0xDB, 0x1B] 4 2 [1/2, 3] [1, 0] [0, 0] 1 [] []
        [0, 0, 0, 0] [0, 2, 4, 6] =
      multiBed3 [0x6C, 0x1B, 0x01, 0xDB, 0x1B] 4 2
        (scatterB (([1/2, 3] : List ℚ).zip (([1, 0] : List ℕ).zip ([0, 0] : List ℕ)))
          (keptVariants 2 [] []).length 1) [] [] [0, 0, 0, 0] [0, 2, 4, 6] :=
  ⟨of_decide_eq_true (by with_unfolding_all rfl),
    of_decide_eq_true (by with_unfolding_all rfl),
    claim4_sparse_dense_equiv [0x6C, 0x1B, 0x01, 0xDB, 0x1B] 4 2 [1/2, 3] [1, 0] [0, 0] 1
      [] [] [0, 0, 0, 0] [0, 2, 4, 6]
      (of_decide_eq_true (by with_unfolding_all rfl))
      (of_decide_eq_true (by with_unfolding_all rfl))
      (by decide)⟩

end SsCTPR
